import Mathlib

/-!
Verification of the percentage/signal mapping in
`custom_components/crestron/fan.py` (`CrestronFan`).

The Python source computes with `round` (banker's rounding, half to
even), `int(..)` (truncation toward zero), and IEEE-754 binary64
("double") arithmetic.  We model the values as exact rationals:
`pyRound` and `pyInt` mirror Python's `round` and `int`, and `fl`
rounds a rational to the nearest double (round to nearest, ties to
even), so that each float operation of the source — whose result
CPython correctly rounds — is modelled as the exact operation followed
by `fl`.  The decoder (`percentage`) applies `fl` at every float step,
because its final conversion `int((current_step/steps)*100)` is
sensitive to double rounding (e.g. `(29/100)*100` evaluates to
`28.999999999999996`).  The encoder and turn-on default keep the plain
rational model: on their domains (percentages 1..100, step counts, the
values `(p/100)*S`, `step*65535/S`, `(p/100)*65535`, `(1/S)*100`) the
truncated/rounded results of double evaluation coincide with the exact
ones, since each is a single correctly rounded division or product
whose exact value sits far enough from the relevant truncation
boundary.  The hub is modelled as a pair of channel maps (analog and
digital), and each command handler as a hub-state transformer.
-/

/-- Python's built-in `round` on an exact value: round half to even. -/
def pyRound (q : ℚ) : ℤ :=
  if q - ⌊q⌋ < 1/2 then ⌊q⌋
  else if 1/2 < q - ⌊q⌋ then ⌊q⌋ + 1
  else if ⌊q⌋ % 2 = 0 then ⌊q⌋ else ⌊q⌋ + 1

/-- Python's `int(..)` on an exact value: truncation toward zero. -/
def pyInt (q : ℚ) : ℤ :=
  if 0 ≤ q then ⌊q⌋ else -⌊-q⌋

/-- Round a rational to the nearest IEEE-754 binary64 value (round to
nearest, ties to even): the significand grid in the binade of `q` has
spacing `2^(e-52)` where `2^e ≤ |q| < 2^(e+1)`, and `pyRound` is
exactly round-half-to-even on that grid.  Overflow and subnormals do
not occur in the ranges this file uses, so they are not modelled. -/
def fl (q : ℚ) : ℚ :=
  if q = 0 then 0
  else (pyRound (q / 2 ^ (Int.log 2 |q| - 52)) : ℚ) * 2 ^ (Int.log 2 |q| - 52)

/-- Immutable configuration of a `CrestronFan`, as read in `__init__`:
the analog join carrying speed, the optional discrete step count, and the
optional digital join for direction reversal. -/
structure FanConfig where
  speed_join : ℕ
  speed_steps : Option ℕ
  reverse_join : Option ℕ

/-- The hub's channel state: analog values and digital values by join
number.  (Analog and digital joins are separate namespaces, matching the
hub's `get_analog`/`get_digital` interface.) -/
structure Hub where
  analog : ℕ → ℤ
  digital : ℕ → Bool

/-- `hub.set_analog(ch, v)`. -/
def Hub.set_analog (hub : Hub) (ch : ℕ) (v : ℤ) : Hub :=
  { hub with analog := fun c => if c = ch then v else hub.analog c }

/-- `hub.set_digital(ch, v)`. -/
def Hub.set_digital (hub : Hub) (ch : ℕ) (v : Bool) : Hub :=
  { hub with digital := fun c => if c = ch then v else hub.digital c }

/-- The `percentage` property of `CrestronFan`: reads the raw analog
value fresh from the hub and converts it.  Stepped mode divides the
analog range into `speed_steps` even steps; stepless mode maps
directly.  Mirrors the source line by line (`round` is Python
rounding, `int` is truncation), with every float operation modelled
by the exact operation followed by `fl`: `65535 / steps` and
`raw / step_size` are correctly rounded divisions (the int operand is
converted exactly for the magnitudes in use, modelled by `fl` on the
raw value), `current_step / steps` and `raw / 65535` likewise, and
`(..) * 100` is a correctly rounded product. -/
def percentage (cfg : FanConfig) (hub : Hub) : ℤ :=
  let raw_value := hub.analog cfg.speed_join
  if raw_value = 0 then 0
  else
    match cfg.speed_steps with
    | some S =>
        let step_size : ℚ := fl (65535 / S)
        let current_step : ℤ :=
          min (S : ℤ) (max 1 (pyRound (fl (fl (raw_value : ℚ) / step_size))))
        pyInt (fl (fl ((current_step : ℚ) / (S : ℚ)) * 100))
    | none =>
        max 1 (min 100 (pyInt (fl (fl ((raw_value : ℚ) / 65535) * 100))))

/-- The `current_direction` property: `None` when no reverse join is
configured, else `"reverse"`/`"forward"` from the digital channel. -/
def current_direction (cfg : FanConfig) (hub : Hub) : Option String :=
  match cfg.reverse_join with
  | none => none
  | some ch => if hub.digital ch then some "reverse" else some "forward"

/-- `async_turn_off`: writes raw 0 to the speed join. -/
def async_turn_off (cfg : FanConfig) (hub : Hub) : Hub :=
  hub.set_analog cfg.speed_join 0

/-- The analog value computed by `async_set_percentage` for a nonzero
percentage, as in the source: stepped mode picks a clamped step and
truncates `step * 65535 / S`; stepless mode truncates
`(percentage / 100) * 65535`. -/
def analog_value (cfg : FanConfig) (p : ℤ) : ℤ :=
  match cfg.speed_steps with
  | some S =>
      let step : ℤ := max 1 (min (S : ℤ) (pyRound (((p : ℚ) / 100) * S)))
      pyInt (((step : ℚ) * 65535) / S)
  | none =>
      pyInt (((p : ℚ) / 100) * 65535)

/-- `async_set_percentage`: percentage 0 delegates to `async_turn_off`;
otherwise the computed analog value is written to the speed join. -/
def async_set_percentage (cfg : FanConfig) (hub : Hub) (p : ℤ) : Hub :=
  if p = 0 then async_turn_off cfg hub
  else hub.set_analog cfg.speed_join (analog_value cfg p)

/-- `async_turn_on`: with no explicit percentage, defaults to
`int((1 / S) * 100)` in stepped mode and to 1 in stepless mode, then
delegates to `async_set_percentage`. -/
def async_turn_on (cfg : FanConfig) (hub : Hub) (p? : Option ℤ) : Hub :=
  let p : ℤ :=
    match p? with
    | none =>
        match cfg.speed_steps with
        | some S => pyInt ((1 / (S : ℚ)) * 100)
        | none => 1
    | some p => p
  async_set_percentage cfg hub p

/-- `async_set_direction`: a no-op when no reverse join is configured,
else writes `direction == "reverse"` to the digital channel. -/
def async_set_direction (cfg : FanConfig) (hub : Hub) (direction : String) : Hub :=
  match cfg.reverse_join with
  | none => hub
  | some ch => hub.set_digital ch (direction == "reverse")

/-- External events and platform commands that can touch the hub state:
the four command handlers, plus hub-side channel changes arriving from
the Crestron system itself. -/
inductive Event where
  | setPct (p : ℤ)
  | turnOn (p? : Option ℤ)
  | turnOff
  | setDir (d : String)
  | hubAnalog (ch : ℕ) (v : ℤ)
  | hubDigital (ch : ℕ) (v : Bool)

/-- Apply one event to the hub state. -/
def applyEvent (cfg : FanConfig) (hub : Hub) : Event → Hub
  | Event.setPct p => async_set_percentage cfg hub p
  | Event.turnOn p? => async_turn_on cfg hub p?
  | Event.turnOff => async_turn_off cfg hub
  | Event.setDir d => async_set_direction cfg hub d
  | Event.hubAnalog ch v => hub.set_analog ch v
  | Event.hubDigital ch v => hub.set_digital ch v

/-- Apply a sequence of events. -/
def applyEvents (cfg : FanConfig) (hub : Hub) : List Event → Hub
  | [] => hub
  | e :: es => applyEvents cfg (applyEvent cfg hub e) es

/-- A hub whose every analog channel holds `v` (digitals all false);
used to probe the mapping at a single concrete raw value. -/
def hubWith (v : ℤ) : Hub :=
  { analog := fun _ => v, digital := fun _ => false }

/-! ### Evaluation lemmas for `pyRound` and `pyInt` -/

theorem pyInt_of_nonneg (q : ℚ) (h : 0 ≤ q) : pyInt q = ⌊q⌋ := by
  simp [pyInt, h]

theorem pyRound_eq_of_lt (n : ℤ) (q : ℚ) (h₁ : (n : ℚ) - 1/2 < q)
    (h₂ : q < (n : ℚ) + 1/2) : pyRound q = n := by
  rcases le_or_lt (n : ℚ) q with hq | hq
  · have hf : ⌊q⌋ = n := by
      rw [Int.floor_eq_iff]
      exact ⟨hq, by linarith⟩
    simp only [pyRound, hf]
    rw [if_pos (by linarith)]
  · have hf : ⌊q⌋ = n - 1 := by
      rw [Int.floor_eq_iff]
      constructor
      · push_cast; linarith
      · push_cast; linarith
    simp only [pyRound, hf]
    rw [if_neg (by push_cast; linarith), if_pos (by push_cast; linarith)]
    ring

theorem pyRound_tie (n : ℤ) (q : ℚ) (h : q = (n : ℚ) + 1/2) :
    pyRound q = if n % 2 = 0 then n else n + 1 := by
  have hf : ⌊q⌋ = n := by
    rw [Int.floor_eq_iff]
    constructor
    · rw [h]; linarith
    · rw [h]; linarith
  simp only [pyRound, hf]
  rw [if_neg (by rw [h]; linarith), if_neg (by rw [h]; linarith)]

theorem pyRound_intCast (n : ℤ) : pyRound (n : ℚ) = n :=
  pyRound_eq_of_lt n _ (by norm_num) (by norm_num)

theorem sub_half_le_pyRound (q : ℚ) : q - 1/2 ≤ (pyRound q : ℚ) := by
  have h0 : (⌊q⌋ : ℚ) ≤ q := Int.floor_le q
  have h1 : q < (⌊q⌋ : ℚ) + 1 := Int.lt_floor_add_one q
  unfold pyRound
  split
  · next hlt => linarith
  · split
    · push_cast; linarith
    · split
      · linarith
      · push_cast; linarith

theorem pyRound_le_add_half (q : ℚ) : (pyRound q : ℚ) ≤ q + 1/2 := by
  have h0 : (⌊q⌋ : ℚ) ≤ q := Int.floor_le q
  have h1 : q < (⌊q⌋ : ℚ) + 1 := Int.lt_floor_add_one q
  unfold pyRound
  split
  · next hlt => linarith
  · next hge =>
    push_neg at hge
    split
    · next hgt => push_cast; linarith
    · next hle =>
      push_neg at hle
      have : q - (⌊q⌋ : ℚ) = 1/2 := le_antisymm hle (by linarith)
      split
      · linarith
      · push_cast; linarith

-- sanity checks (scratch)
example : pyRound ((2 : ℚ) / 100 * 65535) = 1311 :=
  pyRound_eq_of_lt _ _ (by norm_num) (by norm_num)
example : pyRound ((2 : ℚ) / 3 * 100) = 67 :=
  pyRound_eq_of_lt _ _ (by norm_num) (by norm_num)
example : pyRound ((5 : ℚ) / 2) = 2 := by
  rw [pyRound_tie 2 _ (by norm_num)]; norm_num
example : pyRound ((3 : ℚ) / 2) = 2 := by
  rw [pyRound_tie 1 _ (by norm_num)]; norm_num
theorem abs_pyRound_sub_le (q : ℚ) : |(pyRound q : ℚ) - q| ≤ 1/2 := by
  rw [abs_le]
  constructor
  · linarith [pyRound_le_add_half q, sub_half_le_pyRound q]
  · linarith [pyRound_le_add_half q, sub_half_le_pyRound q]

/-! ### Properties of the binary64 rounding `fl` -/

theorem log2_eq_of (q : ℚ) (e : ℤ) (h0 : 0 < q) (h1 : (2 : ℚ) ^ e ≤ q)
    (h2 : q < (2 : ℚ) ^ (e + 1)) : Int.log 2 q = e := by
  have hle : e ≤ Int.log 2 q :=
    (Int.zpow_le_iff_le_log one_lt_two h0).mp (by exact_mod_cast h1)
  have hlt : Int.log 2 q < e + 1 :=
    (Int.lt_zpow_iff_log_lt one_lt_two h0).mp (by exact_mod_cast h2)
  omega

theorem fl_eq (q : ℚ) (e m : ℤ) (hq : q ≠ 0) (hlog : Int.log 2 |q| = e)
    (hm : pyRound (q / 2 ^ (e - 52)) = m) : fl q = (m : ℚ) * 2 ^ (e - 52) := by
  rw [fl, if_neg hq, hlog, hm]

theorem fl_intCast (n : ℤ) (h : |n| < 2 ^ 53) : fl (n : ℚ) = n := by
  rcases eq_or_ne n 0 with rfl | hn
  · simp [fl]
  · have habs : (0 : ℚ) < |(n : ℚ)| := abs_pos.mpr (Int.cast_ne_zero.mpr hn)
    have h1q : (1 : ℚ) ≤ |(n : ℚ)| := by
      rw [← Int.cast_abs]
      exact_mod_cast Int.one_le_abs hn
    set e := Int.log 2 |(n : ℚ)| with he
    have he0 : 0 ≤ e := by
      rw [he, ← Int.log_one_right (b := 2) (R := ℚ)]
      exact Int.log_mono_right one_pos h1q
    have he52 : e ≤ 52 := by
      by_contra hgt
      push_neg at hgt
      have hz : (2 : ℚ) ^ (53 : ℤ) ≤ (2 : ℚ) ^ e :=
        zpow_le_zpow_right₀ (by norm_num) (by omega)
      have h2 : ((2 : ℕ) : ℚ) ^ e ≤ |(n : ℚ)| := Int.zpow_log_le_self one_lt_two habs
      have hc : |(n : ℚ)| < (2 : ℚ) ^ (53 : ℤ) := by
        rw [← Int.cast_abs, show ((2 : ℚ) ^ (53 : ℤ)) = ((2 ^ 53 : ℤ) : ℚ) by push_cast; norm_num]
        exact_mod_cast h
      push_cast at h2
      linarith
    have hkey : (n : ℚ) / 2 ^ (e - 52) = ((n * 2 ^ (52 - e).toNat : ℤ) : ℚ) := by
      rw [div_eq_iff (by positivity : ((2 : ℚ) ^ (e - 52)) ≠ 0)]
      push_cast
      rw [mul_assoc, ← zpow_natCast (2 : ℚ) (52 - e).toNat,
        ← zpow_add₀ (by norm_num : (2 : ℚ) ≠ 0), Int.toNat_of_nonneg (by omega)]
      norm_num
    rw [fl, if_neg (Int.cast_ne_zero.mpr hn), ← he, hkey, pyRound_intCast]
    push_cast
    rw [mul_assoc, ← zpow_natCast (2 : ℚ) (52 - e).toNat,
      ← zpow_add₀ (by norm_num : (2 : ℚ) ≠ 0), Int.toNat_of_nonneg (by omega)]
    norm_num

theorem fl_error (q : ℚ) : |fl q - q| ≤ |q| / 2 ^ 53 := by
  rcases eq_or_ne q 0 with rfl | hq
  · simp [fl]
  · have habs : (0 : ℚ) < |q| := abs_pos.mpr hq
    rw [fl, if_neg hq]
    set e := Int.log 2 |q| with he
    have hpos : (0 : ℚ) < 2 ^ (e - 52) := by positivity
    have hb := abs_pyRound_sub_le (q / 2 ^ (e - 52))
    have key : |(pyRound (q / 2 ^ (e - 52)) : ℚ) * 2 ^ (e - 52) - q| ≤ 2 ^ (e - 52) / 2 := by
      have hrw : (pyRound (q / 2 ^ (e - 52)) : ℚ) * 2 ^ (e - 52) - q =
          ((pyRound (q / 2 ^ (e - 52)) : ℚ) - q / 2 ^ (e - 52)) * 2 ^ (e - 52) := by
        field_simp
      rw [hrw, abs_mul, abs_of_pos hpos]
      nlinarith
    have hlog : (2 : ℚ) ^ e ≤ |q| := by
      have := Int.zpow_log_le_self (b := 2) (r := |q|) one_lt_two habs
      push_cast at this
      rw [← he] at this
      exact this
    have hfin : (2 : ℚ) ^ (e - 52) / 2 ≤ |q| / 2 ^ 53 := by
      rw [div_le_div_iff₀ (by norm_num) (by norm_num)]
      calc (2 : ℚ) ^ (e - 52) * 2 ^ 53 = 2 ^ e * 2 := by
            rw [← zpow_natCast (2 : ℚ) 53, ← zpow_add₀ (by norm_num : (2 : ℚ) ≠ 0),
              show e - 52 + ((53 : ℕ) : ℤ) = e + 1 by push_cast; ring,
              zpow_add₀ (by norm_num : (2 : ℚ) ≠ 0), zpow_one]
        _ ≤ |q| * 2 := by nlinarith
    exact le_trans key hfin

theorem fl_bounds_pos (q : ℚ) (h : 0 < q) :
    q - q / 2 ^ 53 ≤ fl q ∧ fl q ≤ q + q / 2 ^ 53 := by
  have herr := fl_error q
  rw [abs_of_pos h, abs_le] at herr
  exact ⟨by linarith [herr.1], by linarith [herr.2]⟩

theorem fl_pos (q : ℚ) (h : 0 < q) : 0 < fl q := by
  have hb := (fl_bounds_pos q h).1
  nlinarith

theorem pyInt_div_nat (a b : ℕ) : pyInt ((a : ℚ) / (b : ℚ)) = ((a / b : ℕ) : ℤ) := by
  rw [pyInt_of_nonneg _ (by positivity), Rat.floor_natCast_div_natCast]
  exact_mod_cast rfl

example : pyInt ((1 : ℚ) / 150 * 100) = 0 := by
  rw [show (1 : ℚ) / 150 * 100 = ((100 : ℕ) : ℚ) / ((150 : ℕ) : ℚ) by norm_num,
    pyInt_div_nat]
  norm_num
theorem two_zpow_neg (n : ℕ) : (2 : ℚ) ^ (-(n : ℤ)) = 1 / 2 ^ n := by
  rw [zpow_neg, zpow_natCast, one_div]

theorem fl_eval (q : ℚ) (e m : ℤ) (hq : 0 < q) (h1 : (2 : ℚ) ^ e ≤ q)
    (h2 : q < (2 : ℚ) ^ (e + 1)) (hm : pyRound (q / 2 ^ (e - 52)) = m) :
    fl q = (m : ℚ) * 2 ^ (e - 52) :=
  fl_eq q e m (ne_of_gt hq) (by rw [abs_of_pos hq]; exact log2_eq_of q e hq h1 h2) hm

/-- Exact step positions `r*S/65535` keep a distance of at least
`1/131070` from every half-integer: `2rS` is even while
`65535*(2j+1)` is odd. -/
theorem step_margin (r S j : ℤ) :
    1 / 131070 ≤ |(r : ℚ) * S / 65535 - ((j : ℚ) + 1/2)| := by
  have key : (r : ℚ) * S / 65535 - ((j : ℚ) + 1/2) =
      ((2*r*S - 65535*(2*j+1) : ℤ) : ℚ) / 131070 := by
    push_cast; ring
  rw [key, abs_div, abs_of_pos (by norm_num : (0:ℚ) < 131070)]
  have hodd : Odd (2*r*S - 65535*(2*j+1)) :=
    Even.sub_odd ⟨r*S, by ring⟩ ⟨65535*j + 32767, by ring⟩
  have hne : 2*r*S - 65535*(2*j+1) ≠ 0 := by
    intro h0
    rw [h0] at hodd
    exact (Int.not_odd_iff_even.mpr even_zero) hodd
  have h1q : (1 : ℚ) ≤ |((2*r*S - 65535*(2*j+1) : ℤ) : ℚ)| := by
    rw [← Int.cast_abs]
    exact_mod_cast Int.one_le_abs hne
  linarith

/-- The truncated double pipeline `int(float(q) * 100)`: whenever the
interval `q*100*(1 ± 2^-50)` containing the doubly rounded product
lies inside `[m, m+1)`, the truncation is `m`. -/
theorem pyInt_fl_pipeline (q : ℚ) (m : ℤ) (h0 : 0 < q)
    (hlo : (m : ℚ) ≤ q * 100 - q * 100 / 2 ^ 50)
    (hhi : q * 100 + q * 100 / 2 ^ 50 < (m : ℚ) + 1) :
    pyInt (fl (fl q * 100)) = m := by
  have hd := fl_bounds_pos q h0
  have hd0 : 0 < fl q := fl_pos q h0
  have hy := fl_bounds_pos (fl q * 100) (by positivity)
  have hyl : q * 100 - q * 100 / 2 ^ 50 ≤ fl (fl q * 100) := by linarith
  have hyu : fl (fl q * 100) ≤ q * 100 + q * 100 / 2 ^ 50 := by linarith
  have hm1 : (-1 : ℚ) < (m : ℚ) := by linarith
  have hm1' : (-1 : ℤ) < m := by exact_mod_cast hm1
  have hm0 : (0:ℚ) ≤ (m:ℚ) := by
    have : (0 : ℤ) ≤ m := by omega
    exact_mod_cast this
  rw [pyInt_of_nonneg _ (by linarith)]
  rw [Int.floor_eq_iff]
  constructor
  · linarith
  · linarith

/-- The decoder's final conversion `int(float(cs / S) * 100)` agrees
with exact truncating division whenever `S` does not divide `cs*100`:
the exact value is at least `1/S ≥ 1/65535` away from the neighbouring
integers, while the two roundings move it by at most `100/2^50`. -/
theorem final_conv (cs : ℤ) (S : ℕ) (hcs1 : 1 ≤ cs) (hcsS : cs ≤ (S : ℤ))
    (hS2 : S ≤ 65535) (hnd : ¬ ((S : ℤ) ∣ cs * 100)) :
    pyInt (fl (fl ((cs : ℚ) / (S : ℚ)) * 100)) = cs * 100 / (S : ℤ) := by
  have hS1 : (1 : ℤ) ≤ (S : ℤ) := le_trans hcs1 hcsS
  have hSq : (1 : ℚ) ≤ (S : ℚ) := by exact_mod_cast hS1
  have hS65q : (S : ℚ) ≤ 65535 := by exact_mod_cast hS2
  have hcsq : (1 : ℚ) ≤ (cs : ℚ) := by exact_mod_cast hcs1
  have hcsSq : (cs : ℚ) ≤ (S : ℚ) := by exact_mod_cast hcsS
  have hq0 : 0 < (cs : ℚ) / (S : ℚ) := by positivity
  set m : ℤ := cs * 100 / (S : ℤ) with hm
  set rem : ℤ := cs * 100 % (S : ℤ) with hremdef
  have hdm : (S : ℤ) * m + rem = cs * 100 := Int.ediv_add_emod _ _
  have hrem1 : 1 ≤ rem := by
    have h0 : 0 ≤ rem := Int.emod_nonneg _ (by omega)
    have hne : rem ≠ 0 := fun h => hnd (Int.dvd_of_emod_eq_zero h)
    omega
  have hremS : rem ≤ (S : ℤ) - 1 := by
    have := Int.emod_lt_of_pos (cs * 100) (show (0:ℤ) < (S:ℤ) by omega)
    omega
  have hm0 : 0 ≤ m := Int.ediv_nonneg (by omega) (by omega)
  have hwm : (cs : ℚ) / (S : ℚ) * 100 = (m : ℚ) + (rem : ℚ) / (S : ℚ) := by
    have hcast : (S : ℚ) * (m : ℚ) + (rem : ℚ) = (cs : ℚ) * 100 := by exact_mod_cast hdm
    field_simp
    linarith
  have hrem1q : (1 : ℚ) ≤ (rem : ℚ) := by exact_mod_cast hrem1
  have hremSq : (rem : ℚ) ≤ (S : ℚ) - 1 := by
    have : ((rem : ℤ) : ℚ) ≤ (((S : ℤ) - 1 : ℤ) : ℚ) := by exact_mod_cast hremS
    push_cast at this
    linarith
  have hmargin1 : (m : ℚ) + 1 / 65535 ≤ (cs : ℚ) / (S : ℚ) * 100 := by
    rw [hwm]
    have h1 : 1 / 65535 ≤ (rem : ℚ) / (S : ℚ) := by
      rw [div_le_div_iff₀ (by norm_num) (by linarith)]
      nlinarith
    linarith
  have hmargin2 : (cs : ℚ) / (S : ℚ) * 100 ≤ (m : ℚ) + 1 - 1 / 65535 := by
    rw [hwm]
    have h1 : (rem : ℚ) / (S : ℚ) ≤ 1 - 1 / (S : ℚ) := by
      rw [div_le_iff₀ (by linarith : (0:ℚ) < (S:ℚ))]
      have hexp : (1 - 1 / (S : ℚ)) * (S : ℚ) = (S : ℚ) - 1 := by
        field_simp
      rw [hexp]
      linarith
    have h2 : 1 / 65535 ≤ 1 / (S : ℚ) := by
      rw [div_le_div_iff₀ (by norm_num) (by linarith)]
      linarith
    linarith
  have hd := fl_bounds_pos ((cs : ℚ) / (S : ℚ)) hq0
  have hd0 : 0 < fl ((cs : ℚ) / (S : ℚ)) := fl_pos _ hq0
  have hy := fl_bounds_pos (fl ((cs : ℚ) / (S : ℚ)) * 100) (by positivity)
  have hq100 : (cs : ℚ) / (S : ℚ) * 100 ≤ 100 := by
    rw [div_mul_eq_mul_div, div_le_iff₀ (by linarith)]
    nlinarith
  have hyl : (cs : ℚ) / (S : ℚ) * 100 - (cs : ℚ) / (S : ℚ) * 100 / 2 ^ 50 ≤
      fl (fl ((cs : ℚ) / (S : ℚ)) * 100) := by linarith
  have hyu : fl (fl ((cs : ℚ) / (S : ℚ)) * 100) ≤
      (cs : ℚ) / (S : ℚ) * 100 + (cs : ℚ) / (S : ℚ) * 100 / 2 ^ 50 := by linarith
  have hmq : (0 : ℚ) ≤ (m : ℚ) := by exact_mod_cast hm0
  rw [pyInt_of_nonneg _ (by linarith)]
  rw [Int.floor_eq_iff]
  constructor
  · linarith
  · linarith

/-- The decoder's float pipeline for step detection agrees with exact
rational rounding: for raw values and step counts in `[1, 65535]` the
three roundings move the quotient by less than the `1/131070` margin
separating the exact position from every half-integer. -/
theorem step_detect (r : ℤ) (S : ℕ) (hr1 : 1 ≤ r) (hr2 : r ≤ 65535)
    (hS1 : 1 ≤ S) (hS2 : S ≤ 65535) :
    pyRound (fl (fl (r : ℚ) / fl (65535 / (S : ℚ)))) =
      pyRound ((r : ℚ) * S / 65535) := by
  have hSq : (1 : ℚ) ≤ (S : ℚ) := by exact_mod_cast hS1
  have hS65 : (S : ℚ) ≤ 65535 := by exact_mod_cast hS2
  have hrq : (1 : ℚ) ≤ (r : ℚ) := by exact_mod_cast hr1
  have hr65 : (r : ℚ) ≤ 65535 := by exact_mod_cast hr2
  have hflr : fl (r : ℚ) = (r : ℚ) :=
    fl_intCast r (by rw [abs_of_pos (by omega : (0:ℤ) < r)]; omega)
  rw [hflr]
  set a : ℚ := 65535 / (S : ℚ) with ha
  set v : ℚ := (r : ℚ) * S / 65535 with hv
  have hS0 : (0:ℚ) < (S:ℚ) := by linarith
  have ha1 : 1 ≤ a := by rw [ha, le_div_iff₀ hS0]; linarith
  have ha65 : a ≤ 65535 := by rw [ha, div_le_iff₀ hS0]; nlinarith
  have hv0 : 0 < v := by rw [hv]; positivity
  have hv65 : v ≤ 65535 := by
    rw [hv, div_le_iff₀ (by norm_num : (0:ℚ) < 65535)]
    nlinarith
  have hav : a * v = (r : ℚ) := by
    rw [ha, hv]; field_simp; ring
  have hss := fl_bounds_pos a (by linarith)
  have hss0 : 0 < fl a := fl_pos a (by linarith)
  have hx0 : 0 < (r : ℚ) / fl a := by positivity
  have hx0ss : (r : ℚ) / fl a * fl a = (r : ℚ) := div_mul_cancel₀ _ (ne_of_gt hss0)
  have h1 : (r : ℚ) / fl a * (1 - 1/2^53) ≤ v := by
    have hmul : (r : ℚ) / fl a * (a - a/2^53) ≤ (r : ℚ) / fl a * fl a :=
      mul_le_mul_of_nonneg_left hss.1 (le_of_lt hx0)
    rw [hx0ss] at hmul
    nlinarith [hmul, hav, ha1, hx0]
  have h2 : v ≤ (r : ℚ) / fl a * (1 + 1/2^53) := by
    have hmul : (r : ℚ) / fl a * fl a ≤ (r : ℚ) / fl a * (a + a/2^53) :=
      mul_le_mul_of_nonneg_left hss.2 (le_of_lt hx0)
    rw [hx0ss] at hmul
    nlinarith [hmul, hav, ha1, hx0]
  have hx := fl_bounds_pos ((r : ℚ) / fl a) hx0
  have hxu : fl ((r : ℚ) / fl a) ≤ v + v / 2^50 := by linarith
  have hxl : v - v / 2^50 ≤ fl ((r : ℚ) / fl a) := by linarith
  set k : ℤ := pyRound v with hk
  have hkv1 : v - 1/2 ≤ (k:ℚ) := sub_half_le_pyRound v
  have hkv2 : (k:ℚ) ≤ v + 1/2 := pyRound_le_add_half v
  have hm1 := step_margin r (S : ℤ) (k - 1)
  have hm2 := step_margin r (S : ℤ) k
  rw [show ((r:ℚ) * ((S:ℤ) : ℚ) / 65535) = v by rw [hv]; push_cast; ring] at hm1 hm2
  push_cast at hm1 hm2
  have hmargin_low : (k:ℚ) - 1/2 + 1/131070 ≤ v := by
    have habs : |v - ((k:ℚ) - 1 + 1/2)| = v - ((k:ℚ) - 1 + 1/2) :=
      abs_of_nonneg (by linarith)
    rw [habs] at hm1
    linarith
  have hmargin_high : v ≤ (k:ℚ) + 1/2 - 1/131070 := by
    have habs : |v - ((k:ℚ) + 1/2)| = -(v - ((k:ℚ) + 1/2)) :=
      abs_of_nonpos (by linarith)
    rw [habs] at hm2
    linarith
  apply pyRound_eq_of_lt
  · have : v / 2^50 ≤ 65535 / 2^50 := by linarith
    linarith
  · have : v / 2^50 ≤ 65535 / 2^50 := by linarith
    linarith

theorem pyInt_fl_exact (x y : ℚ) (m : ℤ) (hfl1 : fl x = y)
    (hfl2 : fl (y * 100) = (m : ℚ)) (hm : 0 ≤ m) :
    pyInt (fl (fl x * 100)) = m := by
  rw [hfl1, hfl2, pyInt_of_nonneg _ (by exact_mod_cast hm), Int.floor_intCast]

/-- Double rounding at the exact boundary `1/100`: the double nearest
`1/100` is slightly above it and multiplying back by 100 rounds to
exactly 1. -/
theorem pipeline_1_100 : pyInt (fl (fl ((1 : ℚ) / 100) * 100)) = 1 := by
  have s1 : fl ((1 : ℚ) / 100) = (5764607523034235 : ℚ) * 2 ^ ((-7 : ℤ) - 52) := by
    apply fl_eval _ (-7) _ (by norm_num)
    · rw [show ((-7 : ℤ)) = -((7 : ℕ) : ℤ) by norm_num, two_zpow_neg]; norm_num
    · rw [show ((-7 : ℤ) + 1) = -((6 : ℕ) : ℤ) by norm_num, two_zpow_neg]; norm_num
    · rw [show ((-7 : ℤ) - 52) = -((59 : ℕ) : ℤ) by norm_num, two_zpow_neg]
      rw [show ((1 : ℚ) / 100) / (1 / 2 ^ 59) = 576460752303423488 / 100 by norm_num]
      exact pyRound_eq_of_lt 5764607523034235 _ (by norm_num) (by norm_num)
  apply pyInt_fl_exact _ _ 1 s1 _ (by norm_num)
  rw [show ((5764607523034235 : ℚ) * 2 ^ ((-7 : ℤ) - 52)) * 100 =
      576460752303423500 / 2 ^ 59 by
    rw [show ((-7 : ℤ) - 52) = -((59 : ℕ) : ℤ) by norm_num, two_zpow_neg]; norm_num]
  have s2 : fl ((576460752303423500 : ℚ) / 2 ^ 59) =
      (4503599627370496 : ℚ) * 2 ^ ((0 : ℤ) - 52) := by
    apply fl_eval _ 0 _ (by norm_num)
    · rw [show ((0 : ℤ)) = ((0 : ℕ) : ℤ) by norm_num, zpow_natCast]; norm_num
    · rw [show ((0 : ℤ) + 1) = ((1 : ℕ) : ℤ) by norm_num, zpow_natCast]; norm_num
    · rw [show ((0 : ℤ) - 52) = -((52 : ℕ) : ℤ) by norm_num, two_zpow_neg]
      rw [show ((576460752303423500 : ℚ) / 2 ^ 59) / (1 / 2 ^ 52) =
          576460752303423500 / 128 by norm_num]
      exact pyRound_eq_of_lt 4503599627370496 _ (by norm_num) (by norm_num)
  rw [s2]
  rw [show ((0 : ℤ) - 52) = -((52 : ℕ) : ℤ) by norm_num, two_zpow_neg]
  norm_num

/-- Double rounding at the exact boundary `1/5` (raw 13107 stepless):
truncates to exactly 20. -/
theorem pipeline_1_5 : pyInt (fl (fl ((1 : ℚ) / 5) * 100)) = 20 := by
  have s1 : fl ((1 : ℚ) / 5) = (7205759403792794 : ℚ) * 2 ^ ((-3 : ℤ) - 52) := by
    apply fl_eval _ (-3) _ (by norm_num)
    · rw [show ((-3 : ℤ)) = -((3 : ℕ) : ℤ) by norm_num, two_zpow_neg]; norm_num
    · rw [show ((-3 : ℤ) + 1) = -((2 : ℕ) : ℤ) by norm_num, two_zpow_neg]; norm_num
    · rw [show ((-3 : ℤ) - 52) = -((55 : ℕ) : ℤ) by norm_num, two_zpow_neg]
      rw [show ((1 : ℚ) / 5) / (1 / 2 ^ 55) = 36028797018963968 / 5 by norm_num]
      exact pyRound_eq_of_lt 7205759403792794 _ (by norm_num) (by norm_num)
  apply pyInt_fl_exact _ _ 20 s1 _ (by norm_num)
  rw [show ((7205759403792794 : ℚ) * 2 ^ ((-3 : ℤ) - 52)) * 100 =
      720575940379279400 / 2 ^ 55 by
    rw [show ((-3 : ℤ) - 52) = -((55 : ℕ) : ℤ) by norm_num, two_zpow_neg]; norm_num]
  have s2 : fl ((720575940379279400 : ℚ) / 2 ^ 55) =
      (5629499534213120 : ℚ) * 2 ^ ((4 : ℤ) - 52) := by
    apply fl_eval _ 4 _ (by norm_num)
    · rw [show ((4 : ℤ)) = ((4 : ℕ) : ℤ) by norm_num, zpow_natCast]; norm_num
    · rw [show ((4 : ℤ) + 1) = ((5 : ℕ) : ℤ) by norm_num, zpow_natCast]; norm_num
    · rw [show ((4 : ℤ) - 52) = -((48 : ℕ) : ℤ) by norm_num, two_zpow_neg]
      rw [show ((720575940379279400 : ℚ) / 2 ^ 55) / (1 / 2 ^ 48) =
          720575940379279400 / 128 by norm_num]
      exact pyRound_eq_of_lt 5629499534213120 _ (by norm_num) (by norm_num)
  rw [s2]
  rw [show ((4 : ℤ) - 52) = -((48 : ℕ) : ℤ) by norm_num, two_zpow_neg]
  norm_num

/-- Double rounding at the exact boundary `2/5` (raw 26214 stepless):
truncates to exactly 40. -/
theorem pipeline_2_5 : pyInt (fl (fl ((2 : ℚ) / 5) * 100)) = 40 := by
  have s1 : fl ((2 : ℚ) / 5) = (7205759403792794 : ℚ) * 2 ^ ((-2 : ℤ) - 52) := by
    apply fl_eval _ (-2) _ (by norm_num)
    · rw [show ((-2 : ℤ)) = -((2 : ℕ) : ℤ) by norm_num, two_zpow_neg]; norm_num
    · rw [show ((-2 : ℤ) + 1) = -((1 : ℕ) : ℤ) by norm_num, two_zpow_neg]; norm_num
    · rw [show ((-2 : ℤ) - 52) = -((54 : ℕ) : ℤ) by norm_num, two_zpow_neg]
      rw [show ((2 : ℚ) / 5) / (1 / 2 ^ 54) = 36028797018963968 / 5 by norm_num]
      exact pyRound_eq_of_lt 7205759403792794 _ (by norm_num) (by norm_num)
  apply pyInt_fl_exact _ _ 40 s1 _ (by norm_num)
  rw [show ((7205759403792794 : ℚ) * 2 ^ ((-2 : ℤ) - 52)) * 100 =
      720575940379279400 / 2 ^ 54 by
    rw [show ((-2 : ℤ) - 52) = -((54 : ℕ) : ℤ) by norm_num, two_zpow_neg]; norm_num]
  have s2 : fl ((720575940379279400 : ℚ) / 2 ^ 54) =
      (5629499534213120 : ℚ) * 2 ^ ((5 : ℤ) - 52) := by
    apply fl_eval _ 5 _ (by norm_num)
    · rw [show ((5 : ℤ)) = ((5 : ℕ) : ℤ) by norm_num, zpow_natCast]; norm_num
    · rw [show ((5 : ℤ) + 1) = ((6 : ℕ) : ℤ) by norm_num, zpow_natCast]; norm_num
    · rw [show ((5 : ℤ) - 52) = -((47 : ℕ) : ℤ) by norm_num, two_zpow_neg]
      rw [show ((720575940379279400 : ℚ) / 2 ^ 54) / (1 / 2 ^ 47) =
          720575940379279400 / 128 by norm_num]
      exact pyRound_eq_of_lt 5629499534213120 _ (by norm_num) (by norm_num)
  rw [s2]
  rw [show ((5 : ℤ) - 52) = -((47 : ℕ) : ℤ) by norm_num, two_zpow_neg]
  norm_num

/-- Double rounding at the exact boundary `3/5` (raw 39321 stepless):
the double nearest `3/5` is slightly below it, yet multiplying back by
100 rounds up to exactly 60. -/
theorem pipeline_3_5 : pyInt (fl (fl ((3 : ℚ) / 5) * 100)) = 60 := by
  have s1 : fl ((3 : ℚ) / 5) = (5404319552844595 : ℚ) * 2 ^ ((-1 : ℤ) - 52) := by
    apply fl_eval _ (-1) _ (by norm_num)
    · rw [show ((-1 : ℤ)) = -((1 : ℕ) : ℤ) by norm_num, two_zpow_neg]; norm_num
    · rw [show ((-1 : ℤ) + 1) = ((0 : ℕ) : ℤ) by norm_num, zpow_natCast]; norm_num
    · rw [show ((-1 : ℤ) - 52) = -((53 : ℕ) : ℤ) by norm_num, two_zpow_neg]
      rw [show ((3 : ℚ) / 5) / (1 / 2 ^ 53) = 27021597764222976 / 5 by norm_num]
      exact pyRound_eq_of_lt 5404319552844595 _ (by norm_num) (by norm_num)
  apply pyInt_fl_exact _ _ 60 s1 _ (by norm_num)
  rw [show ((5404319552844595 : ℚ) * 2 ^ ((-1 : ℤ) - 52)) * 100 =
      540431955284459500 / 2 ^ 53 by
    rw [show ((-1 : ℤ) - 52) = -((53 : ℕ) : ℤ) by norm_num, two_zpow_neg]; norm_num]
  have s2 : fl ((540431955284459500 : ℚ) / 2 ^ 53) =
      (8444249301319680 : ℚ) * 2 ^ ((5 : ℤ) - 52) := by
    apply fl_eval _ 5 _ (by norm_num)
    · rw [show ((5 : ℤ)) = ((5 : ℕ) : ℤ) by norm_num, zpow_natCast]; norm_num
    · rw [show ((5 : ℤ) + 1) = ((6 : ℕ) : ℤ) by norm_num, zpow_natCast]; norm_num
    · rw [show ((5 : ℤ) - 52) = -((47 : ℕ) : ℤ) by norm_num, two_zpow_neg]
      rw [show ((540431955284459500 : ℚ) / 2 ^ 53) / (1 / 2 ^ 47) =
          540431955284459500 / 64 by norm_num]
      exact pyRound_eq_of_lt 8444249301319680 _ (by norm_num) (by norm_num)
  rw [s2]
  rw [show ((5 : ℤ) - 52) = -((47 : ℕ) : ℤ) by norm_num, two_zpow_neg]
  norm_num

/-- Double rounding at the exact boundary `4/5` (raw 52428 stepless):
truncates to exactly 80. -/
theorem pipeline_4_5 : pyInt (fl (fl ((4 : ℚ) / 5) * 100)) = 80 := by
  have s1 : fl ((4 : ℚ) / 5) = (7205759403792794 : ℚ) * 2 ^ ((-1 : ℤ) - 52) := by
    apply fl_eval _ (-1) _ (by norm_num)
    · rw [show ((-1 : ℤ)) = -((1 : ℕ) : ℤ) by norm_num, two_zpow_neg]; norm_num
    · rw [show ((-1 : ℤ) + 1) = ((0 : ℕ) : ℤ) by norm_num, zpow_natCast]; norm_num
    · rw [show ((-1 : ℤ) - 52) = -((53 : ℕ) : ℤ) by norm_num, two_zpow_neg]
      rw [show ((4 : ℚ) / 5) / (1 / 2 ^ 53) = 36028797018963968 / 5 by norm_num]
      exact pyRound_eq_of_lt 7205759403792794 _ (by norm_num) (by norm_num)
  apply pyInt_fl_exact _ _ 80 s1 _ (by norm_num)
  rw [show ((7205759403792794 : ℚ) * 2 ^ ((-1 : ℤ) - 52)) * 100 =
      720575940379279400 / 2 ^ 53 by
    rw [show ((-1 : ℤ) - 52) = -((53 : ℕ) : ℤ) by norm_num, two_zpow_neg]; norm_num]
  have s2 : fl ((720575940379279400 : ℚ) / 2 ^ 53) =
      (5629499534213120 : ℚ) * 2 ^ ((6 : ℤ) - 52) := by
    apply fl_eval _ 6 _ (by norm_num)
    · rw [show ((6 : ℤ)) = ((6 : ℕ) : ℤ) by norm_num, zpow_natCast]; norm_num
    · rw [show ((6 : ℤ) + 1) = ((7 : ℕ) : ℤ) by norm_num, zpow_natCast]; norm_num
    · rw [show ((6 : ℤ) - 52) = -((46 : ℕ) : ℤ) by norm_num, two_zpow_neg]
      rw [show ((720575940379279400 : ℚ) / 2 ^ 53) / (1 / 2 ^ 46) =
          720575940379279400 / 128 by norm_num]
      exact pyRound_eq_of_lt 5629499534213120 _ (by norm_num) (by norm_num)
  rw [s2]
  rw [show ((6 : ℤ) - 52) = -((46 : ℕ) : ℤ) by norm_num, two_zpow_neg]
  norm_num

/-- Concrete decode: with 3 steps, raw 43690 is recognized as step 2
and reported, after the float conversion `(2/3)*100 ≈ 66.6667`, as 66. -/
theorem percentage_steps3_43690 : percentage ⟨0, some 3, none⟩ (hubWith 43690) = 66 := by
  have hstep : pyRound (fl (fl ((43690 : ℤ) : ℚ) / fl (65535 / ((3 : ℕ) : ℚ)))) = 2 := by
    rw [show ((65535 : ℚ) / ((3 : ℕ) : ℚ)) = ((21845 : ℤ) : ℚ) by norm_num]
    rw [fl_intCast 21845 (by norm_num), fl_intCast 43690 (by norm_num)]
    rw [show (((43690 : ℤ) : ℚ) / ((21845 : ℤ) : ℚ)) = ((2 : ℤ) : ℚ) by norm_num]
    rw [fl_intCast 2 (by norm_num), pyRound_intCast]
  simp only [percentage, hubWith]
  rw [if_neg (by norm_num : ¬ ((43690 : ℤ) = 0))]
  rw [hstep]
  rw [show ((3 : ℕ) : ℤ) ⊓ ((1 : ℤ) ⊔ 2) = 2 by decide]
  rw [show (((2 : ℤ) : ℚ) / ((3 : ℕ) : ℚ)) = (2 : ℚ) / 3 by norm_num]
  exact pyInt_fl_pipeline ((2 : ℚ) / 3) 66 (by norm_num) (by norm_num) (by norm_num)

/-- The percentage property reads the hub state only through the speed
join's current analog value. -/
theorem percentage_congr (cfg : FanConfig) (h₁ h₂ : Hub)
    (h : h₁.analog cfg.speed_join = h₂.analog cfg.speed_join) :
    percentage cfg h₁ = percentage cfg h₂ := by
  simp only [percentage, h]

/-- A hub whose every digital channel reads true (analogs all 1). -/
def hubOn : Hub :=
  { analog := fun _ => 1, digital := fun _ => true }

theorem pyInt_intCast_div_nat (a : ℤ) (b : ℕ) (ha : 0 ≤ a) :
    pyInt ((a : ℚ) / (b : ℚ)) = a / (b : ℤ) := by
  rw [pyInt_of_nonneg _ (by positivity), Rat.floor_intCast_div_natCast]

/-- For a valid step count (and in stepless mode), every percentage in
`[1, 100]` is encoded to a strictly positive analog value. -/
theorem analog_value_pos (cfg : FanConfig) (p : ℤ)
    (hvalid : ∀ S, cfg.speed_steps = some S → 1 ≤ S) (hp : 1 ≤ p) :
    1 ≤ analog_value cfg p := by
  rcases hsteps : cfg.speed_steps with _ | S
  · simp only [analog_value, hsteps]
    rw [pyInt_of_nonneg _ (by positivity)]
    rw [Int.le_floor]
    have : (1 : ℚ) ≤ (p : ℚ) := by exact_mod_cast hp
    push_cast
    nlinarith
  · have hS : 1 ≤ S := hvalid S hsteps
    have hSq : (1 : ℚ) ≤ (S : ℚ) := by exact_mod_cast hS
    simp only [analog_value, hsteps]
    set R : ℤ := pyRound ((p : ℚ) / 100 * S) with hR
    set step : ℤ := max 1 (min (S : ℤ) R) with hstep
    have hstep1 : 1 ≤ step := le_max_left 1 _
    have hstepq : (1 : ℚ) ≤ (step : ℚ) := by exact_mod_cast hstep1
    rw [pyInt_of_nonneg _ (by positivity), Int.le_floor]
    rcases le_or_lt (S : ℕ) 65535 with hS65 | hS65
    · have hS65q : (S : ℚ) ≤ 65535 := by exact_mod_cast hS65
      push_cast
      rw [le_div_iff₀ (by linarith)]
      nlinarith
    · -- huge step counts: the chosen step is at least about S/100
      have hS65q : (65535 : ℚ) < (S : ℚ) := by exact_mod_cast hS65
      have hRq : (p : ℚ) / 100 * S - 1/2 ≤ (R : ℚ) := sub_half_le_pyRound _
      have hpq : (1 : ℚ) ≤ (p : ℚ) := by exact_mod_cast hp
      have hlow : (S : ℚ) / 100 - 1/2 ≤ (R : ℚ) := by
        have : (S : ℚ) / 100 ≤ (p : ℚ) / 100 * S := by
          rw [div_mul_eq_mul_div]
          apply div_le_div_of_nonneg_right _ (by norm_num)
          nlinarith
        linarith
      have hstepge : (S : ℚ) / 100 - 1/2 ≤ (step : ℚ) := by
        rcases le_or_lt R (S : ℤ) with hc | hc
        · have : min (S : ℤ) R = R := min_eq_right hc
          rw [hstep, this]
          have : (R : ℚ) ≤ ((max 1 R : ℤ) : ℚ) := by exact_mod_cast le_max_right 1 R
          linarith
        · have : min (S : ℤ) R = (S : ℤ) := min_eq_left (le_of_lt hc)
          rw [hstep, this]
          have h1 : ((S : ℤ) : ℚ) ≤ ((max 1 (S : ℤ) : ℤ) : ℚ) := by
            exact_mod_cast le_max_right 1 (S : ℤ)
          push_cast at h1 ⊢
          nlinarith
      push_cast
      rw [le_div_iff₀ (by linarith)]
      nlinarith

/-- For a percentage that is not 0, `async_set_percentage` writes the
computed analog value to the speed join. -/
theorem set_percentage_writes (cfg : FanConfig) (hub : Hub) (p : ℤ) (hp : p ≠ 0) :
    (async_set_percentage cfg hub p).analog cfg.speed_join = analog_value cfg p := by
  simp [async_set_percentage, hp, Hub.set_analog]

/-! ### Claims -/

/-- C4: the reported percentage is a pure function of the hub's current
speed-join analog value and the immutable configuration: after any
sequence of platform commands and hub-side changes, the percentage query
agrees with the percentage computed on any hub holding the same current
analog value — the adapter caches no speed or percentage state. -/
theorem fan_no_cache (cfg : FanConfig) (es : List Event) (hub probe : Hub)
    (h : probe.analog cfg.speed_join = (applyEvents cfg hub es).analog cfg.speed_join) :
    percentage cfg probe = percentage cfg (applyEvents cfg hub es) :=
  percentage_congr cfg probe (applyEvents cfg hub es) h

theorem fan_no_cache_witness :
    (hubWith 7).analog 0 = (applyEvents ⟨0, some 3, none⟩ (hubWith 0) [Event.hubAnalog 0 7]).analog 0 ∧
      percentage ⟨0, some 3, none⟩ (hubWith 7) =
        percentage ⟨0, some 3, none⟩ (applyEvents ⟨0, some 3, none⟩ (hubWith 0) [Event.hubAnalog 0 7]) :=
  ⟨rfl, fan_no_cache ⟨0, some 3, none⟩ [Event.hubAnalog 0 7] (hubWith 0) (hubWith 7) rfl⟩

/-- C8: with no reverse join configured, `current_direction` is `None`
and `async_set_direction` leaves the hub untouched; with a reverse join
configured, the direction reads "reverse" iff the digital channel is
true, "forward" iff it is false, and setting direction `d` writes
`d == "reverse"` to that digital channel. -/
theorem direction_mapper (cfg : FanConfig) (hub : Hub) (d : String) :
    (cfg.reverse_join = none →
      current_direction cfg hub = none ∧ async_set_direction cfg hub d = hub) ∧
    (∀ ch, cfg.reverse_join = some ch →
      (current_direction cfg hub = some "reverse" ↔ hub.digital ch = true) ∧
      (current_direction cfg hub = some "forward" ↔ hub.digital ch = false) ∧
      async_set_direction cfg hub d = hub.set_digital ch (d == "reverse")) := by
  constructor
  · intro h
    simp [current_direction, async_set_direction, h]
  · intro ch h
    refine ⟨?_, ?_, ?_⟩
    · cases hdig : hub.digital ch <;> simp [current_direction, h, hdig]
    · cases hdig : hub.digital ch <;> simp [current_direction, h, hdig]
    · simp [async_set_direction, h]

theorem direction_mapper_witness :
    current_direction ⟨0, none, some 5⟩ hubOn = some "reverse" :=
  ((direction_mapper ⟨0, none, some 5⟩ hubOn "forward").2 5 rfl).1.mpr rfl

/-- C9: `async_turn_on` with an explicit percentage of 0 takes the
zero branch of `async_set_percentage` and is exactly `async_turn_off`:
it writes raw 0 to the speed join. -/
theorem turn_on_zero_is_off (cfg : FanConfig) (hub : Hub) :
    async_turn_on cfg hub (some 0) = async_turn_off cfg hub ∧
      (async_turn_on cfg hub (some 0)).analog cfg.speed_join = 0 := by
  constructor
  · simp [async_turn_on, async_set_percentage]
  · simp [async_turn_on, async_set_percentage, async_turn_off, Hub.set_analog]

/-- C10: with a reverse join configured, `async_set_direction` writes
only that digital channel: all analog channels are untouched, every
other digital channel is untouched, and any direction other than
"reverse" (e.g. "forward" or arbitrary strings) writes false. -/
theorem set_direction_frame (cfg : FanConfig) (hub : Hub) (d : String) (ch : ℕ)
    (h : cfg.reverse_join = some ch) :
    (async_set_direction cfg hub d).analog = hub.analog ∧
    (∀ c, c ≠ ch → (async_set_direction cfg hub d).digital c = hub.digital c) ∧
    (d ≠ "reverse" → (async_set_direction cfg hub d).digital ch = false) := by
  refine ⟨?_, ?_, ?_⟩
  · simp [async_set_direction, h, Hub.set_digital]
  · intro c hc
    simp [async_set_direction, h, Hub.set_digital, hc]
  · intro hd
    simp [async_set_direction, h, Hub.set_digital]
    exact hd

theorem set_direction_frame_witness :
    (⟨0, none, some 5⟩ : FanConfig).reverse_join = some 5 ∧
      (async_set_direction ⟨0, none, some 5⟩ hubOn "forward").analog = hubOn.analog ∧
      (async_set_direction ⟨0, none, some 5⟩ hubOn "forward").digital 5 = false := by
  have h := set_direction_frame ⟨0, none, some 5⟩ hubOn "forward" 5 rfl
  exact ⟨rfl, h.1, h.2.2 (by decide)⟩

/-- C5 counterexample: with 101 steps, raw value 1 (which is `> 0`)
decodes to percentage 0, because the first step's percentage
`int((1/101)*100)` truncates to 0 — refuting "decoding any raw value
r > 0 yields percentage ≥ 1 for any positive step count". -/
theorem decoder_bounds_counterexample :
    (hubWith 1).analog 0 = 1 ∧
    percentage ⟨0, some 101, none⟩ (hubWith 1) = 0 := by
  refine ⟨rfl, ?_⟩
  simp only [percentage, hubWith]
  rw [if_neg (by norm_num : ¬ ((1 : ℤ) = 0))]
  have f1 : fl (((1 : ℤ)) : ℚ) = ((1 : ℤ) : ℚ) := fl_intCast 1 (by norm_num)
  rw [f1]
  rw [show (((1 : ℤ)) : ℚ) = (1 : ℚ) by norm_num]
  rw [show ((65535 : ℚ) / ((101 : ℕ) : ℚ)) = 65535 / 101 by norm_num]
  have hss := fl_bounds_pos ((65535 : ℚ) / 101) (by norm_num)
  have hss0 : 0 < fl ((65535 : ℚ) / 101) := fl_pos _ (by norm_num)
  have h640 : (640 : ℚ) ≤ fl ((65535 : ℚ) / 101) := by linarith [hss.1]
  have hx0pos : 0 < 1 / fl ((65535 : ℚ) / 101) := by positivity
  have hxb := fl_bounds_pos (1 / fl ((65535 : ℚ) / 101)) hx0pos
  have hxsmall : 1 / fl ((65535 : ℚ) / 101) ≤ 1 / 640 := by
    rw [div_le_div_iff₀ hss0 (by norm_num)]
    linarith
  have hround : pyRound (fl (1 / fl ((65535 : ℚ) / 101))) = 0 := by
    apply pyRound_eq_of_lt
    · have := fl_pos (1 / fl ((65535 : ℚ) / 101)) hx0pos
      push_cast
      linarith
    · push_cast
      linarith [hxb.2]
  rw [hround]
  rw [show ((101 : ℕ) : ℤ) ⊓ ((1 : ℤ) ⊔ 0) = 1 by decide]
  rw [show (((1 : ℤ)) : ℚ) / ((101 : ℕ) : ℚ) = (1 : ℚ) / 101 by norm_num]
  exact pyInt_fl_pipeline ((1 : ℚ) / 101) 0 (by norm_num) (by norm_num) (by norm_num)

/-- C5 amended: decoding raw 0 yields exactly 0 for every
configuration (no step-count restriction); decoding any raw value
`r ≥ 1` yields percentage ≥ 1 in stepless mode and in stepped mode
with step count `S ≤ 100` (for `S > 100` the first step's percentage
truncates to 0). -/
theorem decoder_bounds (cfg : FanConfig) (hub : Hub) :
    (hub.analog cfg.speed_join = 0 → percentage cfg hub = 0) ∧
    ((∀ S : ℕ, cfg.speed_steps = some S → 1 ≤ S ∧ S ≤ 100) →
      1 ≤ hub.analog cfg.speed_join → 1 ≤ percentage cfg hub) := by
  constructor
  · intro h
    simp [percentage, h]
  · intro hvalid hraw
    rcases hsteps : cfg.speed_steps with _ | S
    · simp only [percentage, hsteps]
      rw [if_neg (by omega)]
      exact le_max_left 1 _
    · obtain ⟨hS1, hS100⟩ := hvalid S hsteps
      simp only [percentage, hsteps]
      rw [if_neg (by omega)]
      have hS1z : (1 : ℤ) ≤ (S : ℤ) := by exact_mod_cast hS1
      have hS100z : (S : ℤ) ≤ 100 := by exact_mod_cast hS100
      set R : ℤ :=
        pyRound (fl (fl ((hub.analog cfg.speed_join : ℚ)) / fl (65535 / (S : ℚ)))) with hR
      set cs : ℤ := min (S : ℤ) (max 1 R) with hcs
      have hcs1 : 1 ≤ cs := by rw [hcs]; omega
      have hcsS : cs ≤ (S : ℤ) := by rw [hcs]; omega
      have hcsq : (1 : ℚ) ≤ (cs : ℚ) := by exact_mod_cast hcs1
      have hSq : (1 : ℚ) ≤ (S : ℚ) := by exact_mod_cast hS1
      have hS100q : (S : ℚ) ≤ 100 := by exact_mod_cast hS100
      by_cases hcase : cs * 100 = (S : ℤ)
      · have hcs1' : cs = 1 := by omega
        have hS100' : S = 100 := by
          have : (S : ℤ) = 100 := by omega
          exact_mod_cast this
        subst hS100'
        rw [hcs1']
        rw [show (((1 : ℤ)) : ℚ) / ((100 : ℕ) : ℚ) = (1 : ℚ) / 100 by norm_num]
        rw [pipeline_1_100]
      · have h1 : (S : ℤ) + 1 ≤ cs * 100 := by omega
        have hq0 : (0 : ℚ) < (cs : ℚ) / (S : ℚ) := by
          apply div_pos <;> linarith
        have hd := fl_bounds_pos ((cs : ℚ) / (S : ℚ)) hq0
        have hd0 : 0 < fl ((cs : ℚ) / (S : ℚ)) := fl_pos _ hq0
        have hy := fl_bounds_pos (fl ((cs : ℚ) / (S : ℚ)) * 100) (by positivity)
        have hw : (1 : ℚ) + 1 / 100 ≤ (cs : ℚ) / (S : ℚ) * 100 := by
          rw [div_mul_eq_mul_div, le_div_iff₀ (by linarith)]
          have hc : (S : ℚ) + 1 ≤ (cs : ℚ) * 100 := by exact_mod_cast h1
          linarith
        have hygt : (1 : ℚ) < fl (fl ((cs : ℚ) / (S : ℚ)) * 100) := by
          nlinarith [hd.1, hy.1, hw, hd0, hq0]
        rw [pyInt_of_nonneg _ (by linarith), Int.le_floor]
        push_cast
        linarith

theorem decoder_bounds_witness :
    percentage ⟨0, some 3, none⟩ (hubWith 0) = 0 ∧
    1 ≤ percentage ⟨0, some 3, none⟩ (hubWith 43690) := by
  constructor
  · exact (decoder_bounds ⟨0, some 3, none⟩ (hubWith 0)).1 rfl
  · exact (decoder_bounds ⟨0, some 3, none⟩ (hubWith 43690)).2
      (fun S hS => by injection hS with h; omega) (by norm_num [hubWith])

/-- C6 counterexample: with 150 configured steps, a turn-on command
without an explicit percentage computes default percentage
`int((1/150)*100) = 0` and therefore writes raw 0 — an off command —
refuting "async_turn_on ... never results in a zero-percentage (off)
command" for every configuration (and refuting the `round(100/S)`
default, which would be 1 here). -/
theorem turn_on_policy_counterexample :
    (async_turn_on ⟨0, some 150, none⟩ (hubWith 7) none).analog 0 = 0 ∧
    pyRound ((100 : ℚ) / 150) = 1 := by
  constructor
  · have h : pyInt ((1 / ((150 : ℕ) : ℚ)) * 100) = ((100 / 150 : ℕ) : ℤ) := by
      rw [show (1 / ((150 : ℕ) : ℚ)) * 100 = ((100 : ℕ) : ℚ) / ((150 : ℕ) : ℚ) by
        push_cast; ring, pyInt_div_nat]
    simp only [async_turn_on, h]
    norm_num
    simp [async_set_percentage, async_turn_off, Hub.set_analog]
  · exact pyRound_eq_of_lt 1 _ (by norm_num) (by norm_num)

/-- C6 amended: turn-on without an explicit percentage commands
percentage `int(100/S)` (integer truncation, e.g. 25 when `S = 4`, but
16 when `S = 6`) in stepped mode and percentage 1 in stepless mode; the
resulting write is nonzero whenever `S ≤ 100`, while for `S > 100` the
default percentage truncates to 0 and the command turns the fan off. -/
theorem turn_on_default_policy (cfg : FanConfig) (hub : Hub) :
    (∀ S : ℕ, cfg.speed_steps = some S → 1 ≤ S →
      async_turn_on cfg hub none = async_set_percentage cfg hub ((100 / S : ℕ) : ℤ) ∧
      (S ≤ 100 → (async_turn_on cfg hub none).analog cfg.speed_join ≠ 0)) ∧
    (cfg.speed_steps = none →
      async_turn_on cfg hub none = async_set_percentage cfg hub 1 ∧
      (async_turn_on cfg hub none).analog cfg.speed_join ≠ 0) := by
  constructor
  · intro S hsteps hS1
    have key : pyInt ((1 / (S : ℚ)) * 100) = ((100 / S : ℕ) : ℤ) := by
      rw [show (1 / (S : ℚ)) * 100 = ((100 : ℕ) : ℚ) / ((S : ℕ) : ℚ) by push_cast; ring,
        pyInt_div_nat]
    have eq1 : async_turn_on cfg hub none =
        async_set_percentage cfg hub ((100 / S : ℕ) : ℤ) := by
      simp only [async_turn_on, hsteps, key]
    refine ⟨eq1, ?_⟩
    intro hS100
    have hp1 : (1 : ℕ) ≤ 100 / S := (Nat.one_le_div_iff (by omega)).mpr hS100
    rw [eq1, set_percentage_writes cfg hub _ (by exact_mod_cast Nat.one_le_iff_ne_zero.mp hp1)]
    have := analog_value_pos cfg ((100 / S : ℕ) : ℤ)
      (fun S' hS' => by rw [hsteps] at hS'; injection hS' with h; omega)
      (by exact_mod_cast hp1)
    omega
  · intro hnone
    have eq1 : async_turn_on cfg hub none = async_set_percentage cfg hub 1 := by
      simp only [async_turn_on, hnone]
    refine ⟨eq1, ?_⟩
    rw [eq1, set_percentage_writes cfg hub 1 one_ne_zero]
    have := analog_value_pos cfg 1
      (fun S' hS' => by rw [hnone] at hS'; cases hS') le_rfl
    omega

theorem turn_on_default_policy_witness :
    async_turn_on ⟨0, some 4, none⟩ (hubWith 0) none =
      async_set_percentage ⟨0, some 4, none⟩ (hubWith 0) 25 ∧
    (async_turn_on ⟨0, some 4, none⟩ (hubWith 0) none).analog 0 ≠ 0 := by
  have h := (turn_on_default_policy ⟨0, some 4, none⟩ (hubWith 0)).1 4 rfl (by norm_num)
  refine ⟨?_, h.2 (by norm_num)⟩
  have h1 := h.1
  norm_num at h1
  exact h1

/-- Double rounding at the exact boundary `29/100`: the double nearest
`29/100` is slightly below it and the product with 100 rounds to a
value just under 29, so truncation reports 28. -/
theorem pipeline_29_100 : pyInt (fl (fl ((29 : ℚ) / 100) * 100)) = 28 := by
  have s1 : fl ((29 : ℚ) / 100) = (5224175567749775 : ℚ) * 2 ^ ((-2 : ℤ) - 52) := by
    apply fl_eval _ (-2) _ (by norm_num)
    · rw [show ((-2 : ℤ)) = -((2 : ℕ) : ℤ) by norm_num, two_zpow_neg]; norm_num
    · rw [show ((-2 : ℤ) + 1) = -((1 : ℕ) : ℤ) by norm_num, two_zpow_neg]; norm_num
    · rw [show ((-2 : ℤ) - 52) = -((54 : ℕ) : ℤ) by norm_num, two_zpow_neg]
      rw [show ((29 : ℚ) / 100) / (1 / 2 ^ 54) = 522417556774977536 / 100 by norm_num]
      exact pyRound_eq_of_lt 5224175567749775 _ (by norm_num) (by norm_num)
  rw [s1]
  rw [show ((5224175567749775 : ℚ) * 2 ^ ((-2 : ℤ) - 52)) * 100 =
      522417556774977500 / 2 ^ 54 by
    rw [show ((-2 : ℤ) - 52) = -((54 : ℕ) : ℤ) by norm_num, two_zpow_neg]; norm_num]
  have s2 : fl ((522417556774977500 : ℚ) / 2 ^ 54) =
      (8162774324609023 : ℚ) * 2 ^ ((4 : ℤ) - 52) := by
    apply fl_eval _ 4 _ (by norm_num)
    · rw [show ((4 : ℤ)) = ((4 : ℕ) : ℤ) by norm_num, zpow_natCast]; norm_num
    · rw [show ((4 : ℤ) + 1) = ((5 : ℕ) : ℤ) by norm_num, zpow_natCast]; norm_num
    · rw [show ((4 : ℤ) - 52) = -((48 : ℕ) : ℤ) by norm_num, two_zpow_neg]
      rw [show ((522417556774977500 : ℚ) / 2 ^ 54) / (1 / 2 ^ 48) =
          522417556774977500 / 64 by norm_num]
      exact pyRound_eq_of_lt 8162774324609023 _ (by norm_num) (by norm_num)
  rw [s2]
  rw [show ((4 : ℤ) - 52) = -((48 : ℕ) : ℤ) by norm_num, two_zpow_neg]
  rw [pyInt_of_nonneg _ (by norm_num)]
  rw [Int.floor_eq_iff]
  constructor
  · norm_num
  · norm_num

/-- Concrete decode at a divisibility boundary: with 100 steps, raw
19005 is step 29, but the float conversion `(29/100)*100` lands just
below 29, so the reported percentage is 28, not 29. -/
theorem percentage_steps100_19005 :
    percentage ⟨0, some 100, none⟩ (hubWith 19005) = 28 := by
  simp only [percentage, hubWith]
  rw [if_neg (by norm_num : ¬ ((19005 : ℤ) = 0))]
  have f1 : fl (((19005 : ℤ)) : ℚ) = ((19005 : ℤ) : ℚ) := fl_intCast 19005 (by norm_num)
  rw [f1]
  rw [show (((19005 : ℤ)) : ℚ) = (19005 : ℚ) by norm_num]
  rw [show ((65535 : ℚ) / ((100 : ℕ) : ℚ)) = 65535 / 100 by norm_num]
  have hss := fl_bounds_pos ((65535 : ℚ) / 100) (by norm_num)
  have hss0 : 0 < fl ((65535 : ℚ) / 100) := fl_pos _ (by norm_num)
  have hb1 : (6553 : ℚ) / 10 ≤ fl ((65535 : ℚ) / 100) := by linarith [hss.1]
  have hb2 : fl ((65535 : ℚ) / 100) ≤ 6554 / 10 := by linarith [hss.2]
  have hx0pos : 0 < (19005 : ℚ) / fl ((65535 : ℚ) / 100) := by positivity
  have hxb := fl_bounds_pos ((19005 : ℚ) / fl ((65535 : ℚ) / 100)) hx0pos
  have hxlo : (289 : ℚ) / 10 ≤ (19005 : ℚ) / fl ((65535 : ℚ) / 100) := by
    rw [le_div_iff₀ hss0]
    linarith
  have hxhi : (19005 : ℚ) / fl ((65535 : ℚ) / 100) ≤ 291 / 10 := by
    rw [div_le_iff₀ hss0]
    linarith
  have hround : pyRound (fl ((19005 : ℚ) / fl ((65535 : ℚ) / 100))) = 29 := by
    apply pyRound_eq_of_lt
    · push_cast
      linarith [hxb.1]
    · push_cast
      linarith [hxb.2]
  rw [hround]
  rw [show ((100 : ℕ) : ℤ) ⊓ ((1 : ℤ) ⊔ 29) = 29 by decide]
  rw [show (((29 : ℤ)) : ℚ) / ((100 : ℕ) : ℚ) = (29 : ℚ) / 100 by norm_num]
  exact pipeline_29_100

/-- C1 counterexample: with `S = 3` and `k = 2`, the encoded raw value
is `round(2*65535/3) = 43690`, but decoding it reports 66, not the
claimed `round(2/3*100) = 67` — the decoder truncates the final
percentage instead of rounding it; and with `S = 100`, `k = 29` the
encoded raw value `round(29*65535/100) = 19005` decodes to 28, not the
claimed `round(29/100*100) = 29`, because the float product
`(29/100)*100` lands just below 29. -/
theorem round_trip_counterexample :
    (pyRound ((2 : ℚ) * 65535 / 3) = 43690 ∧
      percentage ⟨0, some 3, none⟩ (hubWith 43690) = 66 ∧
      pyRound ((2 : ℚ) / 3 * 100) = 67) ∧
    (pyRound ((29 : ℚ) * 65535 / 100) = 19005 ∧
      percentage ⟨0, some 100, none⟩ (hubWith 19005) = 28 ∧
      pyRound ((29 : ℚ) / 100 * 100) = 29) := by
  refine ⟨⟨?_, percentage_steps3_43690,
      pyRound_eq_of_lt 67 _ (by norm_num) (by norm_num)⟩,
    ⟨pyRound_eq_of_lt 19005 _ (by norm_num) (by norm_num),
      percentage_steps100_19005, ?_⟩⟩
  · rw [show (2 : ℚ) * 65535 / 3 = ((43690 : ℤ) : ℚ) by norm_num]
    exact pyRound_intCast _
  · rw [show (29 : ℚ) / 100 * 100 = ((29 : ℤ) : ℚ) by norm_num]
    exact pyRound_intCast _

/-- C1 amended: for every step count `S` with `1 ≤ S ≤ 65535` and every
step `k ∈ [1, S]` such that `S` does not divide `k*100`, decoding the
encoded raw value `round(k*65535/S)` yields percentage `int(k*100/S)`
— the step `k` is recovered exactly and the final percentage is
truncated, not rounded; when `S` divides `k*100` the doubly rounded
float product can report one below the exact `k*100/S` (e.g. `S = 100`,
`k = 29`). -/
theorem round_trip (cfg : FanConfig) (hub : Hub) (S k : ℕ)
    (hsteps : cfg.speed_steps = some S) (hk1 : 1 ≤ k) (hkS : k ≤ S)
    (hS : S ≤ 65535) (hnd : ¬ ((S : ℤ) ∣ (k : ℤ) * 100))
    (hraw : hub.analog cfg.speed_join = pyRound ((k : ℚ) * 65535 / (S : ℚ))) :
    percentage cfg hub = (k : ℤ) * 100 / (S : ℤ) := by
  have hS1 : 1 ≤ S := le_trans hk1 hkS
  have hSq : (1 : ℚ) ≤ (S : ℚ) := by exact_mod_cast hS1
  have hS65q : (S : ℚ) ≤ 65535 := by exact_mod_cast hS
  have hkq1 : (1 : ℚ) ≤ (k : ℚ) := by exact_mod_cast hk1
  have hkSq : (k : ℚ) ≤ (S : ℚ) := by exact_mod_cast hkS
  have hq1 : 1 ≤ (k : ℚ) * 65535 / S := by
    rw [le_div_iff₀ (by linarith)]
    nlinarith
  have hq65 : (k : ℚ) * 65535 / S ≤ 65535 := by
    rw [div_le_iff₀ (by linarith)]
    nlinarith
  have hrlow := sub_half_le_pyRound ((k : ℚ) * 65535 / S)
  have hrhigh := pyRound_le_add_half ((k : ℚ) * 65535 / S)
  set r : ℤ := pyRound ((k : ℚ) * 65535 / (S : ℚ)) with hrdef
  have hr1 : 1 ≤ r := by
    have h0 : (0 : ℚ) < (r : ℚ) := by linarith
    have h0' : (0 : ℤ) < r := by exact_mod_cast h0
    omega
  have hr65 : r ≤ 65535 := by
    have ha : (r : ℚ) < 65536 := by linarith
    have hb : r < 65536 := by exact_mod_cast ha
    omega
  have hqS : ((k : ℚ) * 65535 / S) * S = (k : ℚ) * 65535 := by
    field_simp
  have hstepk : pyRound ((r : ℚ) * S / 65535) = ((k : ℕ) : ℤ) := by
    rcases eq_or_lt_of_le hS with hSeq | hSlt
    · subst hSeq
      have hq_int : (k : ℚ) * 65535 / ((65535 : ℕ) : ℚ) = ((k : ℤ) : ℚ) := by
        push_cast
        field_simp
      have hrk : r = (k : ℤ) := by rw [hrdef, hq_int]; exact pyRound_intCast _
      rw [hrk]
      rw [show (((k : ℤ)) : ℚ) * ((65535 : ℕ) : ℚ) / 65535 = ((k : ℤ) : ℚ) by
        push_cast; field_simp]
      exact pyRound_intCast _
    · have hS65lt : (S : ℚ) < 65535 := by exact_mod_cast hSlt
      apply pyRound_eq_of_lt
      · push_cast
        rw [sub_lt_iff_lt_add, div_add' _ _ _ (by norm_num : (65535 : ℚ) ≠ 0)]
        rw [lt_div_iff₀ (by norm_num : (0 : ℚ) < 65535)]
        nlinarith [mul_le_mul_of_nonneg_right hrlow (by linarith : (0 : ℚ) ≤ (S : ℚ)),
          hqS]
      · push_cast
        rw [div_lt_iff₀ (by norm_num : (0 : ℚ) < 65535)]
        nlinarith [mul_le_mul_of_nonneg_right hrhigh (by linarith : (0 : ℚ) ≤ (S : ℚ)),
          hqS]
  simp only [percentage, hraw, hsteps]
  rw [if_neg (by omega)]
  rw [step_detect r S hr1 hr65 hS1 hS]
  rw [hstepk]
  have hclamp : min (S : ℤ) (max 1 ((k : ℕ) : ℤ)) = ((k : ℕ) : ℤ) := by
    have h2 : ((k : ℕ) : ℤ) ≤ ((S : ℕ) : ℤ) := by exact_mod_cast hkS
    have h1 : (1 : ℤ) ≤ ((k : ℕ) : ℤ) := by exact_mod_cast hk1
    omega
  rw [hclamp]
  exact final_conv (k : ℤ) S (by exact_mod_cast hk1) (by exact_mod_cast hkS) hS hnd

theorem round_trip_witness :
    percentage ⟨0, some 3, none⟩ (hubWith 21845) = 33 := by
  have h := round_trip ⟨0, some 3, none⟩ (hubWith 21845) 3 1 rfl
    (by norm_num) (by norm_num) (by norm_num) (by omega)
    (by
      rw [show ((1 : ℕ) : ℚ) * 65535 / ((3 : ℕ) : ℚ) = ((21845 : ℤ) : ℚ) by
        push_cast; norm_num]
      rw [pyRound_intCast]
      rfl)
  rw [show ((1 : ℕ) : ℤ) * 100 / ((3 : ℕ) : ℤ) = 33 by decide] at h
  exact h
